import Mathlib

/-!
Shallow embedding of `src/BloomFilterHW.py` (class `BloomFilter`).

The filter state consists of the private attributes of the Python object:
`__vector` (a `BitVector`, modelled as a `List Bool`), `__numHashes` and
`__inserted` (Python ints, modelled as `Nat`; both are only ever
non-negative in the program).  The external hash function `BitHash`
(imported from the `BitHash` module, not part of this repository) is
modelled as an abstract parameter `bh : Key → Nat → Nat` mapping a key and
a 1-based hash index to a non-negative integer, exactly the interface the
source code uses.
-/

set_option autoImplicit false

namespace BloomFilterHW

variable {Key : Type}

/-- State of a `BloomFilter` object: the bit vector `__vector`, the hash
count `__numHashes` and the running counter `__inserted`. -/
structure BloomFilter where
  vector : List Bool
  numHashes : Nat
  inserted : Nat
  deriving DecidableEq

/-- Body of the `for` loop of `BloomFilter.insert` (lines 33-40) for one
hash index `i`: compute `hashed = BitHash(key, i) % len(self.__vector)`;
if the bit at `hashed` is 0, increment `__inserted` and set the bit. -/
def insertStep (bh : Key → Nat → Nat) (bf : BloomFilter) (key : Key) (i : Nat) :
    BloomFilter :=
  let hashed := bh key i % bf.vector.length
  if bf.vector[hashed]? = some false then
    { bf with inserted := bf.inserted + 1, vector := bf.vector.set hashed true }
  else
    bf

/-- The `for i in range(1, numHashes+1)` loop of `insert`, driven by an
explicit list of hash indices threaded through the mutable state. -/
def insertLoop (bh : Key → Nat → Nat) (key : Key) :
    List Nat → BloomFilter → BloomFilter
  | [], bf => bf
  | i :: rest, bf => insertLoop bh key rest (insertStep bh bf key i)

/-- Model of `BloomFilter.insert` (lines 32-40): run the loop body for each hash
index `i` in `range(1, self.__numHashes + 1)`, i.e. `1, …, numHashes`. -/
def insert (bh : Key → Nat → Nat) (bf : BloomFilter) (key : Key) : BloomFilter :=
  insertLoop bh key (List.range' 1 bf.numHashes) bf

/-- A sequence of `insert` calls, one per key of the list, in order. -/
def insertAll (bh : Key → Nat → Nat) : BloomFilter → List Key → BloomFilter
  | bf, [] => bf
  | bf, k :: ks => insertAll bh (insert bh bf k) ks

/-- The `for` loop of `BloomFilter.find` (lines 47-49), with the state
threaded through explicitly so that the absence of side effects is a
provable statement rather than a modelling choice: each iteration computes
`hashed = BitHash(key, i) % len(self.__vector)` and returns `False`
immediately when the bit at `hashed` is 0; falling off the loop returns
`True` (line 50). -/
def findLoop (bh : Key → Nat → Nat) (key : Key) :
    List Nat → BloomFilter → Bool × BloomFilter
  | [], bf => (true, bf)
  | i :: rest, bf =>
    let hashed := bh key i % bf.vector.length
    if bf.vector.getD hashed false = false then (false, bf)
    else findLoop bh key rest bf

/-- Model of `BloomFilter.find` (lines 46-50): loop over hash indices
`1, …, numHashes`, returning the boolean result and the (unchanged)
state. -/
def findS (bh : Key → Nat → Nat) (bf : BloomFilter) (key : Key) :
    Bool × BloomFilter :=
  findLoop bh key (List.range' 1 bf.numHashes) bf

/-- Result of `BloomFilter.find`, the boolean component. -/
def find (bh : Key → Nat → Nat) (bf : BloomFilter) (key : Key) : Bool :=
  (findS bh bf key).1

/-- Model of `BloomFilter.numBitsSet` (lines 66-67): returns `self.__inserted`. -/
def numBitsSet (bf : BloomFilter) : Nat :=
  bf.inserted

/-- Model of `BloomFilter.falsePositiveRate` (lines 59-61), with Python float
arithmetic idealised as exact rational arithmetic (the operations used are
subtraction, division and an integer power):
`phi = (len(vector) - inserted) / len(vector)`, result `(1 - phi) ** numHashes`. -/
def falsePositiveRate (bf : BloomFilter) : ℚ :=
  let phi : ℚ := ((bf.vector.length : ℚ) - (bf.inserted : ℚ)) / (bf.vector.length : ℚ)
  (1 - phi) ^ bf.numHashes

/-- Filter state produced by `__init__` (lines 21-24) once the bit-vector
size `N` has been computed: a vector of `N` zero bits, the given hash
count, and `__inserted = 0`. -/
def mkFilter (N numHashes : Nat) : BloomFilter :=
  ⟨List.replicate N false, numHashes, 0⟩

/-- Invariant relating the `__inserted` counter to the bit vector: the
counter equals the number of 1-bits currently in the vector. -/
def bitsSetInv (bf : BloomFilter) : Prop :=
  numBitsSet bf = bf.vector.count true

instance (bf : BloomFilter) : Decidable (bitsSetInv bf) := by
  unfold bitsSetInv; infer_instance

/-! ### Lemmas about a single loop iteration of `insert` -/

section StepLemmas

variable (bh : Key → Nat → Nat) (key : Key)

theorem count_set_true_of_getFalse :
    ∀ (l : List Bool) (i : Nat), l[i]? = some false →
      (l.set i true).count true = l.count true + 1
  | [], i, h => by simp at h
  | b :: t, 0, h => by
    simp at h
    subst h
    simp [List.count_cons]
  | b :: t, i + 1, h => by
    simp only [List.getElem?_cons_succ] at h
    simp only [List.set, List.count_cons, count_set_true_of_getFalse t i h]
    omega

theorem insertStep_length (bf : BloomFilter) (i : Nat) :
    (insertStep bh bf key i).vector.length = bf.vector.length := by
  unfold insertStep
  dsimp only
  split <;> simp

theorem insertStep_numHashes (bf : BloomFilter) (i : Nat) :
    (insertStep bh bf key i).numHashes = bf.numHashes := by
  unfold insertStep
  dsimp only
  split <;> rfl

theorem insertStep_mono (bf : BloomFilter) (i j : Nat)
    (h : bf.vector[j]? = some true) :
    (insertStep bh bf key i).vector[j]? = some true := by
  unfold insertStep
  dsimp only
  split
  · rename_i hc
    by_cases hij : bh key i % bf.vector.length = j
    · rw [hij, h] at hc
      cases hc
    · simpa [List.getElem?_set_ne hij] using h
  · exact h

theorem insertStep_sets (bf : BloomFilter) (i : Nat) (hN : 0 < bf.vector.length) :
    (insertStep bh bf key i).vector[bh key i % bf.vector.length]? = some true := by
  have hlt : bh key i % bf.vector.length < bf.vector.length := Nat.mod_lt _ hN
  unfold insertStep
  dsimp only
  split
  · rw [List.getElem?_set_eq_of_lt _ hlt]
  · rename_i hc
    cases hq : bf.vector[bh key i % bf.vector.length]? with
    | none =>
      have := List.getElem?_eq_none_iff.mp hq
      omega
    | some b =>
      cases b
      · exact absurd hq hc
      · rfl

theorem insertStep_inserted (bf : BloomFilter) (i : Nat) :
    bf.inserted ≤ (insertStep bh bf key i).inserted ∧
      (insertStep bh bf key i).inserted ≤ bf.inserted + 1 := by
  unfold insertStep
  dsimp only
  split <;> simp

theorem insertStep_inv (bf : BloomFilter) (i : Nat) (h : bitsSetInv bf) :
    bitsSetInv (insertStep bh bf key i) := by
  unfold bitsSetInv numBitsSet at h ⊢
  unfold insertStep
  dsimp only
  split
  · rename_i hc
    simp only [count_set_true_of_getFalse _ _ hc]
    omega
  · exact h

end StepLemmas

/-! ### Lemmas about the insert loop, `insert` and sequences of inserts -/

section LoopLemmas

variable (bh : Key → Nat → Nat) (key : Key)

theorem insertLoop_length (L : List Nat) :
    ∀ bf : BloomFilter, (insertLoop bh key L bf).vector.length = bf.vector.length := by
  induction L with
  | nil => intro bf; rfl
  | cons i rest ih =>
    intro bf
    rw [insertLoop, ih, insertStep_length]

theorem insertLoop_numHashes (L : List Nat) :
    ∀ bf : BloomFilter, (insertLoop bh key L bf).numHashes = bf.numHashes := by
  induction L with
  | nil => intro bf; rfl
  | cons i rest ih =>
    intro bf
    rw [insertLoop, ih, insertStep_numHashes]

theorem insertLoop_mono (L : List Nat) :
    ∀ (bf : BloomFilter) (j : Nat), bf.vector[j]? = some true →
      (insertLoop bh key L bf).vector[j]? = some true := by
  induction L with
  | nil => intro bf j h; exact h
  | cons i rest ih =>
    intro bf j h
    exact ih _ j (insertStep_mono bh key bf i j h)

theorem insertLoop_sets (L : List Nat) :
    ∀ bf : BloomFilter, 0 < bf.vector.length → ∀ i ∈ L,
      (insertLoop bh key L bf).vector[bh key i % bf.vector.length]? = some true := by
  induction L with
  | nil => intro bf _ i hi; cases hi
  | cons m rest ih =>
    intro bf hN i hi
    rw [insertLoop]
    rcases List.mem_cons.mp hi with him | hir
    · subst him
      exact insertLoop_mono bh key rest _ _ (insertStep_sets bh key bf i hN)
    · have hN' : 0 < (insertStep bh bf key m).vector.length := by
        rw [insertStep_length]; exact hN
      have := ih (insertStep bh bf key m) hN' i hir
      rwa [insertStep_length] at this

theorem insertLoop_noop (L : List Nat) :
    ∀ bf : BloomFilter,
      (∀ i ∈ L, bf.vector[bh key i % bf.vector.length]? = some true) →
      insertLoop bh key L bf = bf := by
  induction L with
  | nil => intro bf _; rfl
  | cons m rest ih =>
    intro bf h
    have hm : bf.vector[bh key m % bf.vector.length]? = some true :=
      h m (List.mem_cons_self m rest)
    have hstep : insertStep bh bf key m = bf := by
      unfold insertStep
      dsimp only
      rw [if_neg]
      rw [hm]
      simp
    rw [insertLoop, hstep]
    exact ih bf fun i hi => h i (List.mem_cons_of_mem m hi)

theorem insertLoop_inserted (L : List Nat) :
    ∀ bf : BloomFilter,
      bf.inserted ≤ (insertLoop bh key L bf).inserted ∧
        (insertLoop bh key L bf).inserted ≤ bf.inserted + L.length := by
  induction L with
  | nil => intro bf; simp [insertLoop]
  | cons m rest ih =>
    intro bf
    rw [insertLoop]
    have h1 := insertStep_inserted bh key bf m
    have h2 := ih (insertStep bh bf key m)
    simp only [List.length_cons]
    omega

theorem insertLoop_inv (L : List Nat) :
    ∀ bf : BloomFilter, bitsSetInv bf → bitsSetInv (insertLoop bh key L bf) := by
  induction L with
  | nil => intro bf h; exact h
  | cons m rest ih =>
    intro bf h
    exact ih _ (insertStep_inv bh key bf m h)

theorem insert_length (bf : BloomFilter) :
    (insert bh bf key).vector.length = bf.vector.length :=
  insertLoop_length bh key _ bf

theorem insert_numHashes (bf : BloomFilter) :
    (insert bh bf key).numHashes = bf.numHashes :=
  insertLoop_numHashes bh key _ bf

theorem insert_mono (bf : BloomFilter) (j : Nat) (h : bf.vector[j]? = some true) :
    (insert bh bf key).vector[j]? = some true :=
  insertLoop_mono bh key _ bf j h

theorem insert_sets (bf : BloomFilter) (hN : 0 < bf.vector.length) :
    ∀ i ∈ List.range' 1 bf.numHashes,
      (insert bh bf key).vector[bh key i % bf.vector.length]? = some true :=
  insertLoop_sets bh key _ bf hN

theorem insert_inv (bf : BloomFilter) (h : bitsSetInv bf) :
    bitsSetInv (insert bh bf key) :=
  insertLoop_inv bh key _ bf h

theorem insertAll_length (ks : List Key) :
    ∀ bf : BloomFilter, (insertAll bh bf ks).vector.length = bf.vector.length := by
  induction ks with
  | nil => intro bf; rfl
  | cons k ks ih =>
    intro bf
    rw [insertAll, ih, insert_length]

theorem insertAll_numHashes (ks : List Key) :
    ∀ bf : BloomFilter, (insertAll bh bf ks).numHashes = bf.numHashes := by
  induction ks with
  | nil => intro bf; rfl
  | cons k ks ih =>
    intro bf
    rw [insertAll, ih, insert_numHashes]

theorem insertAll_mono (ks : List Key) :
    ∀ (bf : BloomFilter) (j : Nat), bf.vector[j]? = some true →
      (insertAll bh bf ks).vector[j]? = some true := by
  induction ks with
  | nil => intro bf j h; exact h
  | cons k ks ih =>
    intro bf j h
    exact ih _ j (insert_mono bh k bf j h)

theorem insertAll_inserted_le (ks : List Key) :
    ∀ bf : BloomFilter, bf.inserted ≤ (insertAll bh bf ks).inserted := by
  induction ks with
  | nil => intro bf; exact Nat.le_refl _
  | cons k ks ih =>
    intro bf
    exact Nat.le_trans (insertLoop_inserted bh k _ bf).1 (ih (insert bh bf k))

theorem insertAll_inv (ks : List Key) :
    ∀ bf : BloomFilter, bitsSetInv bf → bitsSetInv (insertAll bh bf ks) := by
  induction ks with
  | nil => intro bf h; exact h
  | cons k ks ih =>
    intro bf h
    exact ih _ (insert_inv bh k bf h)

end LoopLemmas

/-! ### Lemmas about the find loop -/

section FindLemmas

variable (bh : Key → Nat → Nat) (key : Key)

theorem findLoop_state (L : List Nat) :
    ∀ bf : BloomFilter, (findLoop bh key L bf).2 = bf := by
  induction L with
  | nil => intro bf; rfl
  | cons m rest ih =>
    intro bf
    rw [findLoop]
    split
    · rfl
    · exact ih bf

theorem findLoop_true (L : List Nat) (bf : BloomFilter)
    (h : ∀ i ∈ L, bf.vector[bh key i % bf.vector.length]? = some true) :
    (findLoop bh key L bf).1 = true := by
  induction L with
  | nil => rfl
  | cons m rest ih =>
    rw [findLoop]
    have hm : bf.vector.getD (bh key m % bf.vector.length) false = true := by
      rw [List.getD, List.get?_eq_getElem?, h m (List.mem_cons_self m rest)]
      rfl
    rw [if_neg (by rw [hm]; simp)]
    exact ih fun i hi => h i (List.mem_cons_of_mem m hi)

theorem getD_replicate_false (N j : Nat) :
    (List.replicate N false).getD j false = false := by
  simp only [List.getD, List.get?_eq_getElem?, List.getElem?_replicate]
  split <;> rfl

end FindLemmas

/-! ### Claim theorems about the operational behaviour -/

/-- C2: no false negatives — once `insert(k)` has returned, `find(k)`
returns true, and it continues to return true after any further sequence
of `insert` calls with arbitrary other keys, for every filter whose bit
vector is non-empty (as every validly constructed filter is). -/
theorem insert_find_no_false_negative (bh : Key → Nat → Nat) (bf : BloomFilter)
    (k : Key) (ks : List Key) (hN : 0 < bf.vector.length) :
    find bh (insertAll bh (insert bh bf k) ks) k = true := by
  have hlen1 : (insert bh bf k).vector.length = bf.vector.length :=
    insert_length bh k bf
  have hlen2 : (insertAll bh (insert bh bf k) ks).vector.length = bf.vector.length := by
    rw [insertAll_length, hlen1]
  have hnh : (insertAll bh (insert bh bf k) ks).numHashes = bf.numHashes := by
    rw [insertAll_numHashes, insert_numHashes]
  unfold find findS
  apply findLoop_true
  intro i hi
  rw [hnh] at hi
  rw [hlen2]
  exact insertAll_mono bh ks _ _ (insert_sets bh k bf hN i hi)

/-- Witness for C2 at a concrete filter, hash function and key sequence. -/
theorem insert_find_no_false_negative_witness :
    0 < (mkFilter 5 2).vector.length ∧
      find (fun (k i : Nat) => k + i)
        (insertAll (fun (k i : Nat) => k + i)
          (insert (fun (k i : Nat) => k + i) (mkFilter 5 2) 3) [10, 11]) 3 = true :=
  ⟨by decide,
    insert_find_no_false_negative (fun (k i : Nat) => k + i) (mkFilter 5 2) 3
      [10, 11] (by decide)⟩

/-- C4: `numBitsSet` always equals the number of 1-bits in the bit array —
it is 0 on the fresh filter (where the invariant holds), the invariant is
preserved by `insert`, and one loop iteration increments the counter by
exactly 1 when it flips a 0-bit and leaves it unchanged when the bit is
already 1. -/
theorem numBitsSet_counts_ones (bh : Key → Nat → Nat) (bf : BloomFilter)
    (k : Key) (N d : Nat) (hinv : bitsSetInv bf) :
    numBitsSet (mkFilter N d) = 0 ∧ bitsSetInv (mkFilter N d) ∧
      bitsSetInv (insert bh bf k) ∧
      (∀ i : Nat, bf.vector[bh k i % bf.vector.length]? = some false →
        numBitsSet (insertStep bh bf k i) = numBitsSet bf + 1) ∧
      (∀ i : Nat, bf.vector[bh k i % bf.vector.length]? = some true →
        numBitsSet (insertStep bh bf k i) = numBitsSet bf) := by
  refine ⟨rfl, ?_, insert_inv bh k bf hinv, ?_, ?_⟩
  · unfold bitsSetInv numBitsSet mkFilter
    simp [List.count_replicate]
  · intro i hi
    unfold insertStep numBitsSet
    rw [if_pos hi]
  · intro i hi
    unfold insertStep numBitsSet
    rw [if_neg]
    rw [hi]
    simp

/-- Witness for C4 at a concrete filter state satisfying the invariant. -/
theorem numBitsSet_counts_ones_witness :
    bitsSetInv (⟨[true, false, false], 2, 1⟩ : BloomFilter) ∧
      (numBitsSet (mkFilter 4 2) = 0 ∧ bitsSetInv (mkFilter 4 2) ∧
        bitsSetInv (insert (fun (k i : Nat) => k * i) ⟨[true, false, false], 2, 1⟩ 6) ∧
        (∀ i : Nat,
          (⟨[true, false, false], 2, 1⟩ : BloomFilter).vector[(fun (k i : Nat) => k * i) 6 i % 3]? =
              some false →
            numBitsSet (insertStep (fun (k i : Nat) => k * i) ⟨[true, false, false], 2, 1⟩ 6 i) =
              numBitsSet ⟨[true, false, false], 2, 1⟩ + 1) ∧
        (∀ i : Nat,
          (⟨[true, false, false], 2, 1⟩ : BloomFilter).vector[(fun (k i : Nat) => k * i) 6 i % 3]? =
              some true →
            numBitsSet (insertStep (fun (k i : Nat) => k * i) ⟨[true, false, false], 2, 1⟩ 6 i) =
              numBitsSet ⟨[true, false, false], 2, 1⟩)) :=
  ⟨by decide,
    numBitsSet_counts_ones (fun (k i : Nat) => k * i) ⟨[true, false, false], 2, 1⟩ 6 4 2
      (by decide)⟩

/-- C5: idempotent insert — inserting the same key twice in a row yields
exactly the same filter state (bit array, hash count and counter) as
inserting it once. -/
theorem insert_idempotent (bh : Key → Nat → Nat) (bf : BloomFilter) (k : Key)
    (hN : 0 < bf.vector.length) :
    insert bh (insert bh bf k) k = insert bh bf k := by
  show insertLoop bh k (List.range' 1 (insert bh bf k).numHashes) (insert bh bf k) =
    insert bh bf k
  apply insertLoop_noop
  intro i hi
  rw [insert_numHashes] at hi
  rw [insert_length]
  exact insert_sets bh k bf hN i hi

/-- Witness for C5 at a concrete filter, hash function and key. -/
theorem insert_idempotent_witness :
    0 < (mkFilter 4 3).vector.length ∧
      insert (fun (k i : Nat) => k + 2 * i)
          (insert (fun (k i : Nat) => k + 2 * i) (mkFilter 4 3) 9) 9 =
        insert (fun (k i : Nat) => k + 2 * i) (mkFilter 4 3) 9 :=
  ⟨by decide, insert_idempotent (fun (k i : Nat) => k + 2 * i) (mkFilter 4 3) 9 (by decide)⟩

/-- C6: across any sequence of `insert` calls on a filter satisfying the
counter invariant, `numBitsSet` never decreases and never exceeds the
length `N` of the bit array. -/
theorem numBitsSet_monotone_bounded (bh : Key → Nat → Nat) (bf : BloomFilter)
    (ks : List Key) (hinv : bitsSetInv bf) :
    numBitsSet bf ≤ numBitsSet (insertAll bh bf ks) ∧
      numBitsSet (insertAll bh bf ks) ≤ bf.vector.length := by
  constructor
  · exact insertAll_inserted_le bh ks bf
  · have h := insertAll_inv bh ks bf hinv
    unfold bitsSetInv at h
    rw [h]
    calc (insertAll bh bf ks).vector.count true
        ≤ (insertAll bh bf ks).vector.length := List.count_le_length ..
      _ = bf.vector.length := insertAll_length bh ks bf

/-- Witness for C6 at a concrete filter and key sequence. -/
theorem numBitsSet_monotone_bounded_witness :
    bitsSetInv (mkFilter 5 2) ∧
      (numBitsSet (mkFilter 5 2) ≤
          numBitsSet (insertAll (fun (k i : Nat) => k + i) (mkFilter 5 2) [1, 2, 3]) ∧
        numBitsSet (insertAll (fun (k i : Nat) => k + i) (mkFilter 5 2) [1, 2, 3]) ≤
          (mkFilter 5 2).vector.length) :=
  ⟨by decide,
    numBitsSet_monotone_bounded (fun (k i : Nat) => k + i) (mkFilter 5 2) [1, 2, 3]
      (by decide)⟩

/-- C7: `find` has no side effects — threading the state through the find
loop returns the filter unchanged, so the bit array and the `numBitsSet`
counter are exactly what they were before the call. -/
theorem find_no_side_effects (bh : Key → Nat → Nat) (bf : BloomFilter) (k : Key) :
    (findS bh bf k).2 = bf ∧ numBitsSet (findS bh bf k).2 = numBitsSet bf := by
  have h : (findS bh bf k).2 = bf := findLoop_state bh k (List.range' 1 bf.numHashes) bf
  exact ⟨h, by rw [h]⟩

/-- C9: on a freshly constructed filter (no inserts yet), `find` returns
false for every key and `numBitsSet` returns 0, whenever at least one hash
function is configured (as valid construction guarantees). -/
theorem fresh_filter_empty (bh : Key → Nat → Nat) (N d : Nat) (k : Key)
    (hd : 0 < d) :
    find bh (mkFilter N d) k = false ∧ numBitsSet (mkFilter N d) = 0 := by
  refine ⟨?_, rfl⟩
  unfold find findS mkFilter
  dsimp only
  cases d with
  | zero => exact absurd hd (Nat.lt_irrefl 0)
  | succ d' =>
    rw [List.range'_succ, findLoop]
    dsimp only
    rw [if_pos (getD_replicate_false N _)]

/-- Witness for C9 at a concrete size, hash count and key. -/
theorem fresh_filter_empty_witness :
    0 < 2 ∧
      (find (fun (k i : Nat) => k * 7 + i) (mkFilter 6 2) 13 = false ∧
        numBitsSet (mkFilter 6 2) = 0) :=
  ⟨by decide, fresh_filter_empty (fun (k i : Nat) => k * 7 + i) 6 2 13 (by decide)⟩

/-- C8: `falsePositiveRate` returns exactly `(1 - phi) ^ numHashes` with
`phi = (N - numBitsSet) / N`; under the counter invariant this equals
`(numBitsSet / N) ^ numHashes` and always lies in the closed interval
`[0, 1]`. -/
theorem falsePositiveRate_formula_bounds (bf : BloomFilter)
    (hN : 0 < bf.vector.length) (hinv : bitsSetInv bf) :
    falsePositiveRate bf =
        (1 - ((bf.vector.length : ℚ) - (numBitsSet bf : ℚ)) / (bf.vector.length : ℚ)) ^
          bf.numHashes ∧
      falsePositiveRate bf =
        ((numBitsSet bf : ℚ) / (bf.vector.length : ℚ)) ^ bf.numHashes ∧
      0 ≤ falsePositiveRate bf ∧ falsePositiveRate bf ≤ 1 := by
  have hNQ : (0 : ℚ) < (bf.vector.length : ℚ) := by exact_mod_cast hN
  have hne : (bf.vector.length : ℚ) ≠ 0 := ne_of_gt hNQ
  have hcount : bf.inserted ≤ bf.vector.length := by
    unfold bitsSetInv numBitsSet at hinv
    rw [hinv]
    exact List.count_le_length ..
  have hform : falsePositiveRate bf =
      ((bf.inserted : ℚ) / (bf.vector.length : ℚ)) ^ bf.numHashes := by
    unfold falsePositiveRate
    field_simp
  refine ⟨rfl, hform, ?_, ?_⟩
  · rw [hform]
    positivity
  · rw [hform]
    have h01 : (bf.inserted : ℚ) / (bf.vector.length : ℚ) ≤ 1 := by
      rw [div_le_one hNQ]
      exact_mod_cast hcount
    exact pow_le_one₀ (by positivity) h01

/-- Witness for C8 at a concrete filter state satisfying the invariant. -/
theorem falsePositiveRate_formula_bounds_witness :
    0 < (⟨[true, false, true, false], 2, 2⟩ : BloomFilter).vector.length ∧
      bitsSetInv (⟨[true, false, true, false], 2, 2⟩ : BloomFilter) ∧
      (falsePositiveRate ⟨[true, false, true, false], 2, 2⟩ =
          (1 - ((((⟨[true, false, true, false], 2, 2⟩ : BloomFilter).vector.length : ℚ) -
              (numBitsSet ⟨[true, false, true, false], 2, 2⟩ : ℚ)) /
            ((⟨[true, false, true, false], 2, 2⟩ : BloomFilter).vector.length : ℚ))) ^
            (⟨[true, false, true, false], 2, 2⟩ : BloomFilter).numHashes ∧
        falsePositiveRate ⟨[true, false, true, false], 2, 2⟩ =
          ((numBitsSet ⟨[true, false, true, false], 2, 2⟩ : ℚ) /
            ((⟨[true, false, true, false], 2, 2⟩ : BloomFilter).vector.length : ℚ)) ^
            (⟨[true, false, true, false], 2, 2⟩ : BloomFilter).numHashes ∧
        0 ≤ falsePositiveRate ⟨[true, false, true, false], 2, 2⟩ ∧
        falsePositiveRate ⟨[true, false, true, false], 2, 2⟩ ≤ 1) :=
  ⟨by decide, by decide,
    falsePositiveRate_formula_bounds ⟨[true, false, true, false], 2, 2⟩
      (by decide) (by decide)⟩

/-- C10: a single `insert` call increases `numBitsSet` by at most
`numHashes`, since the loop touches exactly `numHashes` positions and
increments the counter at most once per position. -/
theorem insert_adds_at_most_numHashes (bh : Key → Nat → Nat) (bf : BloomFilter)
    (k : Key) :
    numBitsSet (insert bh bf k) ≤ numBitsSet bf + bf.numHashes := by
  have h := (insertLoop_inserted bh k (List.range' 1 bf.numHashes) bf).2
  have hlen : (List.range' 1 bf.numHashes).length = bf.numHashes :=
    List.length_range' ..
  unfold numBitsSet insert
  omega

/-! ### Construction: `__bitsNeeded` and `__init__`

Python float arithmetic is idealised as exact real arithmetic here, with
`x ** y` modelled by the real power `Real.rpow`.  This is faithful for the
non-negative bases that arise when `maxFalsePositive ≥ 0` (for a negative
base Python produces a complex number and fails later with a `TypeError`,
which is outside this model).  Python raises an uncaught
`ZeroDivisionError` at `1/numHashes` when `numHashes = 0`, at
`1/numKeys` when `numKeys = 0`, and at the final division when the
denominator is zero; there is no parameter validation and no
`InvalidParameter` exception anywhere in the source. -/

/-- Uncaught Python exception on the construction path. -/
inductive PyError where
  | zeroDivision
  deriving DecidableEq

/-- Python `int(...)` conversion of a float: truncation toward zero. -/
noncomputable def pyInt (x : ℝ) : ℤ :=
  if 0 ≤ x then ⌊x⌋ else ⌈x⌉

/-- The real value of the expression `numHashes / (1 - phi ** (1/numKeys))`
with `phi = 1 - maxFalsePositive ** (1/numHashes)` from line 14-15. -/
noncomputable def sizeFormula (numKeys numHashes : Nat) (maxFalsePositive : ℝ) : ℝ :=
  (numHashes : ℝ) /
    ((1 : ℝ) - ((1 : ℝ) - maxFalsePositive ^ ((1 : ℝ) / (numHashes : ℝ))) ^
      ((1 : ℝ) / (numKeys : ℝ)))

/-- Model of `BloomFilter.__bitsNeeded` (lines 13-15):
`phi = 1 - maxFalsePositive ** (1/numHashes)`, then
`int(numHashes / (1 - phi ** (1/numKeys)))`, with each Python
`ZeroDivisionError` made explicit in the order the interpreter would
raise it. -/
noncomputable def bitsNeeded (numKeys numHashes : Nat) (maxFalsePositive : ℝ) :
    Except PyError ℤ :=
  if numHashes = 0 then .error .zeroDivision
  else if numKeys = 0 then .error .zeroDivision
  else if (1 : ℝ) - ((1 : ℝ) - maxFalsePositive ^ ((1 : ℝ) / (numHashes : ℝ))) ^
      ((1 : ℝ) / (numKeys : ℝ)) = 0 then .error .zeroDivision
  else .ok (pyInt (sizeFormula numKeys numHashes maxFalsePositive))

/-- Model of `BloomFilter.__init__` (lines 21-24): compute the bit-vector size with
`__bitsNeeded` and build the state `BitVector(size = N)` (all bits zero),
`__numHashes = numHashes`, `__inserted = 0`. -/
noncomputable def bloomInit (numKeys numHashes : Nat) (maxFalsePositive : ℝ) :
    Except PyError BloomFilter :=
  match bitsNeeded numKeys numHashes maxFalsePositive with
  | .error e => .error e
  | .ok N => .ok (mkFilter N.toNat numHashes)

/-- Sizing formula following the spec's words (§4.1), for comparison with
the code's `__bitsNeeded`: `phi = 1 - P^(1/d)`,
`N = ceil( d / (1 - phi^(1/n)) )`. -/
noncomputable def bitsNeededSpec (numKeys numHashes : Nat) (maxFalsePositive : ℝ) : ℤ :=
  ⌈sizeFormula numKeys numHashes maxFalsePositive⌉

/-- C1 counterexample: `maxFalsePositive = 1` lies outside the open
interval `(0, 1)`, yet `__init__` does not raise anything — it returns a
constructed, usable filter with `numHashes` bits (there is no parameter
validation and no `InvalidParameter` exception in the code). -/
theorem bloomInit_accepts_one : bloomInit 100000 4 1 = .ok (mkFilter 4 4) := by
  have hden : (1 : ℝ) - ((1 : ℝ) - (1 : ℝ) ^ ((1 : ℝ) / ((4 : ℕ) : ℝ))) ^
      ((1 : ℝ) / ((100000 : ℕ) : ℝ)) = 1 := by
    rw [Real.one_rpow, show (1 : ℝ) - 1 = 0 by norm_num,
      Real.zero_rpow (by norm_num)]
    norm_num
  have hsf : sizeFormula 100000 4 1 = 4 := by
    unfold sizeFormula
    rw [hden]
    norm_num
  unfold bloomInit bitsNeeded
  rw [if_neg (by norm_num), if_neg (by norm_num), if_neg (by rw [hden]; norm_num)]
  rw [hsf]
  unfold pyInt
  rw [if_pos (by norm_num)]
  norm_num
  rfl

/-- C1 amended: the code performs no parameter validation and defines no
`InvalidParameter` exception.  Construction with `numHashes = 0`,
`numKeys = 0` or `maxFalsePositive = 0` dies with an uncaught
`ZeroDivisionError` inside `__bitsNeeded`, while `maxFalsePositive = 1`,
also outside `(0, 1)`, is accepted and produces a usable filter with
`numHashes` bits. -/
theorem bloomInit_no_validation (n d : Nat) (hd : 0 < d) (hn : 0 < n) (P : ℝ) :
    bloomInit n 0 P = .error .zeroDivision ∧
      bloomInit 0 d P = .error .zeroDivision ∧
      bloomInit n d 0 = .error .zeroDivision ∧
      bloomInit n d 1 = .ok (mkFilter d d) := by
  have hd0 : d ≠ 0 := Nat.pos_iff_ne_zero.mp hd
  have hn0 : n ≠ 0 := Nat.pos_iff_ne_zero.mp hn
  have hdR : ((d : ℕ) : ℝ) ≠ 0 := Nat.cast_ne_zero.mpr hd0
  have hnR : ((n : ℕ) : ℝ) ≠ 0 := Nat.cast_ne_zero.mpr hn0
  refine ⟨?_, ?_, ?_, ?_⟩
  · unfold bloomInit bitsNeeded
    rw [if_pos rfl]
  · unfold bloomInit bitsNeeded
    rw [if_neg hd0, if_pos rfl]
  · have hc : (1 : ℝ) - ((1 : ℝ) - (0 : ℝ) ^ ((1 : ℝ) / (d : ℝ))) ^
        ((1 : ℝ) / (n : ℝ)) = 0 := by
      rw [Real.zero_rpow (one_div_ne_zero hdR),
        show (1 : ℝ) - 0 = 1 by norm_num, Real.one_rpow]
      norm_num
    unfold bloomInit bitsNeeded
    rw [if_neg hd0, if_neg hn0, if_pos hc]
  · have hc : (1 : ℝ) - ((1 : ℝ) - (1 : ℝ) ^ ((1 : ℝ) / (d : ℝ))) ^
        ((1 : ℝ) / (n : ℝ)) = 1 := by
      rw [Real.one_rpow, show (1 : ℝ) - 1 = 0 by norm_num,
        Real.zero_rpow (one_div_ne_zero hnR)]
      norm_num
    have hsf : sizeFormula n d 1 = (d : ℝ) := by
      unfold sizeFormula
      rw [hc]
      norm_num
    unfold bloomInit bitsNeeded
    rw [if_neg hd0, if_neg hn0, if_neg (by rw [hc]; norm_num)]
    rw [hsf]
    unfold pyInt
    rw [if_pos (Nat.cast_nonneg d), Int.floor_natCast]
    simp [mkFilter]

/-- Witness for the C1 amended theorem at concrete parameters. -/
theorem bloomInit_no_validation_witness :
    0 < 3 ∧ 0 < 2 ∧
      (bloomInit 2 0 ((37 : ℝ) / 100) = .error .zeroDivision ∧
        bloomInit 0 3 ((37 : ℝ) / 100) = .error .zeroDivision ∧
        bloomInit 2 3 0 = .error .zeroDivision ∧
        bloomInit 2 3 1 = .ok (mkFilter 3 3)) :=
  ⟨by decide, by decide,
    bloomInit_no_validation 2 3 (by decide) (by decide) ((37 : ℝ) / 100)⟩

/-- Value of the sizing expression at `numKeys = 1`, `numHashes = 1`,
`maxFalsePositive = 2/3`. -/
theorem sizeFormula_example : sizeFormula 1 1 ((2 : ℝ) / 3) = 3 / 2 := by
  unfold sizeFormula
  norm_num [Real.rpow_one]

/-- C3 counterexample: at the valid parameters `numKeys = 1`,
`numHashes = 1`, `maxFalsePositive = 2/3` the value of
`d / (1 - phi^(1/n))` is `3/2`; the spec's closed form
`N = ceil(3/2) = 2`, but the code computes `int(3/2) = 1`. -/
theorem bitsNeeded_ne_ceil :
    bitsNeeded 1 1 ((2 : ℝ) / 3) = .ok 1 ∧ bitsNeededSpec 1 1 ((2 : ℝ) / 3) = 2 := by
  have hden : (1 : ℝ) - ((1 : ℝ) - ((2 : ℝ) / 3) ^ ((1 : ℝ) / ((1 : ℕ) : ℝ))) ^
      ((1 : ℝ) / ((1 : ℕ) : ℝ)) = 2 / 3 := by
    norm_num [Real.rpow_one]
  constructor
  · unfold bitsNeeded
    rw [if_neg (by norm_num), if_neg (by norm_num), if_neg (by rw [hden]; norm_num)]
    rw [sizeFormula_example]
    unfold pyInt
    rw [if_pos (by norm_num)]
    norm_num [Int.floor_eq_iff]
  · unfold bitsNeededSpec
    rw [sizeFormula_example]
    norm_num [Int.ceil_eq_iff]

/-- C3 amended: `__bitsNeeded` truncates with `int(...)` rather than
taking the ceiling — whenever the parameters pass the three divisions and
the formula value `v = d / (1 - phi^(1/n))` is non-negative and not an
integer, the code computes `⌊v⌋` while the spec's closed form gives
`⌊v⌋ + 1`, so the computed size differs from `ceil(v)`. -/
theorem bitsNeeded_truncates (n d : Nat) (P : ℝ) (hd : d ≠ 0) (hn : n ≠ 0)
    (hden : (1 : ℝ) - ((1 : ℝ) - P ^ ((1 : ℝ) / (d : ℝ))) ^ ((1 : ℝ) / (n : ℝ)) ≠ 0)
    (hv0 : 0 ≤ sizeFormula n d P)
    (hvint : ((⌊sizeFormula n d P⌋ : ℝ)) ≠ sizeFormula n d P) :
    bitsNeeded n d P = .ok ⌊sizeFormula n d P⌋ ∧
      bitsNeededSpec n d P = ⌊sizeFormula n d P⌋ + 1 ∧
      bitsNeeded n d P ≠ .ok (bitsNeededSpec n d P) := by
  have h1 : bitsNeeded n d P = .ok ⌊sizeFormula n d P⌋ := by
    unfold bitsNeeded
    rw [if_neg hd, if_neg hn, if_neg hden]
    unfold pyInt
    rw [if_pos hv0]
  have hceil : bitsNeededSpec n d P = ⌊sizeFormula n d P⌋ + 1 := by
    unfold bitsNeededSpec
    have hlt : (⌊sizeFormula n d P⌋ : ℝ) < sizeFormula n d P :=
      lt_of_le_of_ne (Int.floor_le _) hvint
    have hgt : ⌊sizeFormula n d P⌋ < ⌈sizeFormula n d P⌉ := Int.lt_ceil.mpr hlt
    have hle : ⌈sizeFormula n d P⌉ ≤ ⌊sizeFormula n d P⌋ + 1 := by
      apply Int.ceil_le.mpr
      push_cast
      exact le_of_lt (Int.lt_floor_add_one _)
    omega
  refine ⟨h1, hceil, ?_⟩
  rw [h1, hceil]
  intro hcontra
  simp only [Except.ok.injEq] at hcontra
  omega

/-- Witness for the C3 amended theorem at `numKeys = 1`, `numHashes = 1`,
`maxFalsePositive = 2/3`. -/
theorem bitsNeeded_truncates_witness :
    (1 : ℕ) ≠ 0 ∧
      ((1 : ℝ) - ((1 : ℝ) - ((2 : ℝ) / 3) ^ ((1 : ℝ) / ((1 : ℕ) : ℝ))) ^
          ((1 : ℝ) / ((1 : ℕ) : ℝ)) ≠ 0) ∧
      0 ≤ sizeFormula 1 1 ((2 : ℝ) / 3) ∧
      ((⌊sizeFormula 1 1 ((2 : ℝ) / 3)⌋ : ℝ)) ≠ sizeFormula 1 1 ((2 : ℝ) / 3) ∧
      (bitsNeeded 1 1 ((2 : ℝ) / 3) = .ok ⌊sizeFormula 1 1 ((2 : ℝ) / 3)⌋ ∧
        bitsNeededSpec 1 1 ((2 : ℝ) / 3) = ⌊sizeFormula 1 1 ((2 : ℝ) / 3)⌋ + 1 ∧
        bitsNeeded 1 1 ((2 : ℝ) / 3) ≠ .ok (bitsNeededSpec 1 1 ((2 : ℝ) / 3))) :=
  ⟨by decide, by norm_num [Real.rpow_one],
    by rw [sizeFormula_example]; norm_num,
    by rw [sizeFormula_example]; norm_num [Int.floor_eq_iff],
    bitsNeeded_truncates 1 1 ((2 : ℝ) / 3) (by decide) (by decide)
      (by norm_num [Real.rpow_one])
      (by rw [sizeFormula_example]; norm_num)
      (by rw [sizeFormula_example]; norm_num [Int.floor_eq_iff])⟩

end BloomFilterHW
